import Mathlib

set_option maxRecDepth 4000

namespace ImageCompression

/-!
Shallow embedding of the compression core of `src/ImageCompression.cpp`.

Bytes are modelled as `Nat`; the 8-bit run counter of `runLengthEncode`
wraps explicitly with `% 256`, matching `uchar` arithmetic.  The
`unordered_map` iteration order used to seed the priority queue is not
specified by C++, so it is an explicit parameter `ord` (the list of the
distinct byte values in the order the map yields them).  The
`priority_queue` with comparator `l->freq > r->freq` pops a node of
minimal frequency; its choice among equal-frequency nodes depends on heap
internals, and the embedding resolves that tie towards the earliest
inserted node, one legal refinement of the source.  Popping from an empty
queue is undefined behaviour in C++ and is modelled as `none`.
-/

/-- One run of `runLengthEncode`: `v` is the current run value, `c` the
current `uchar` counter (already reduced mod 256).  Mirrors the inner
`while` of the source: equal neighbours bump the counter with 8-bit
wraparound; at the end of a maximal run the pair `value, count` is
appended. -/
def rleAux : Nat → Nat → List Nat → List Nat
  | v, c, [] => [v, c]
  | v, c, x :: xs => if x = v then rleAux v ((c + 1) % 256) xs else v :: c :: rleAux x 1 xs

/-- `runLengthEncode` of the source: flat `value, count` pairs, counter
starting at 1 for each run. -/
def runLengthEncode : List Nat → List Nat
  | [] => []
  | x :: xs => rleAux x 1 xs

/-- The loop body of the frequency pass: `freq[ch]++`, on a table viewed
as a total function that is 0 outside the keys. -/
def bumpFreq (f : Nat → Nat) (ch : Nat) : Nat → Nat :=
  fun b => if b = ch then f b + 1 else f b

/-- The `unordered_map<uchar,int> freq` filled by `freq[ch]++` over the
data. -/
def buildFreq (data : List Nat) : Nat → Nat :=
  data.foldl bumpFreq (fun _ => 0)

/-- The `HuffmanNode` tree of the source.  Internal nodes carry only the
summed frequency (the source stores a dummy byte there that is never read
at non-leaves). -/
inductive HuffmanNode where
  | leaf (data : Nat) (freq : Nat)
  | internal (freq : Nat) (left right : HuffmanNode)
deriving DecidableEq

def HuffmanNode.freq : HuffmanNode → Nat
  | .leaf _ f => f
  | .internal f _ _ => f

/-- Pop a node of minimal frequency (the comparator orders by `freq`
only); among equal frequencies the earliest inserted node is taken.
Returns the node and the remaining queue, `none` on the empty queue. -/
def popMin : List HuffmanNode → Option (HuffmanNode × List HuffmanNode)
  | [] => none
  | [n] => some (n, [])
  | n :: m :: rest =>
    match popMin (m :: rest) with
    | some (p, q) => if n.freq ≤ p.freq then some (n, m :: rest) else some (p, n :: q)
    | none => none

/-- One iteration of the `while (pq.size() != 1)` loop: pop two minimal
nodes, push an internal parent whose frequency is their sum. -/
def buildStep (q : List HuffmanNode) : Option (List HuffmanNode) :=
  match popMin q with
  | none => none
  | some (l, q₁) =>
    match popMin q₁ with
    | none => none
    | some (r, q₂) => some (q₂ ++ [HuffmanNode.internal (l.freq + r.freq) l r])

/-- The merge loop, with fuel (the initial queue size suffices: every
step shrinks the queue by one).  A queue that empties mid-way — in
particular the empty initial queue of an empty input — is the source's
pop-from-empty undefined behaviour, modelled as `none`. -/
def buildLoop : Nat → List HuffmanNode → Option HuffmanNode
  | _, [n] => some n
  | 0, _ => none
  | f + 1, q =>
    match buildStep q with
    | some q' => buildLoop f q'
    | none => none

/-- `buildHuffmanTree` of the source up to extraction of the root: seed
the queue with one leaf per distinct byte value, in the map's iteration
order `ord`, and run the merge loop. -/
def buildHuffmanTree (ord : List Nat) (data : List Nat) : Option HuffmanNode :=
  buildLoop ord.length (ord.map fun s => HuffmanNode.leaf s (buildFreq data s))

/-- The recursive `encode` lambda: depth-first traversal appending 0 on
the left branch and 1 on the right branch, recording the accumulated path
at each leaf. -/
def assignCodes : HuffmanNode → List Nat → List (Nat × List Nat)
  | .leaf d _, path => [(d, path)]
  | .internal _ l r, path => assignCodes l (path ++ [0]) ++ assignCodes r (path ++ [1])

/-- The `huffmanCode` table produced by `buildHuffmanTree`: codes of the
root, with the empty path as the starting accumulator. -/
def huffmanCode (ord data : List Nat) : Option (List (Nat × List Nat)) :=
  (buildHuffmanTree ord data).map fun root => assignCodes root []

/-- `huffmanCode[ch]` lookup; a missing key yields the empty code, as
`operator[]` default-constructs an empty string. -/
def lookupCode (tbl : List (Nat × List Nat)) (b : Nat) : List Nat :=
  match tbl.find? (fun p => p.1 == b) with
  | some p => p.2
  | none => []

/-- `encodedStr`: the per-symbol codes concatenated in data order
(`encodedStr += huffmanCode[ch]`). -/
def encodedBits (tbl : List (Nat × List Nat)) (data : List Nat) : List Nat :=
  data.foldl (fun acc ch => acc ++ lookupCode tbl ch) []

/-- `std::bitset<8>(s).to_ulong()` for a chunk `s` of at most 8 bits: the
chunk read as a binary numeral, most significant first; a chunk shorter
than 8 bits lands in the low-order positions (high bits zero). -/
def bitsToByte (bits : List Nat) : Nat :=
  bits.foldl (fun acc b => acc * 2 + b) 0

/-- The packing loop `for (i = 0; i < encodedStr.size(); i += 8)`, with
fuel (the bit-list length suffices: every step consumes at least one
bit). -/
def packBitsFuel : Nat → List Nat → List Nat
  | _, [] => []
  | 0, _ => []
  | f + 1, b :: rest => bitsToByte (List.take 8 (b :: rest)) :: packBitsFuel f (List.drop 7 rest)

/-- The byte-packing stage of `huffmanEncode`: successive 8-bit chunks of
the concatenated code string, each converted by `bitsToByte`. -/
def packBits (bits : List Nat) : List Nat :=
  packBitsFuel bits.length bits

/-- `huffmanEncode` of the source: build the code table, concatenate the
codes of the data, pack into bytes.  `none` propagates the undefined
behaviour of tree construction on an empty alphabet. -/
def huffmanEncode (ord data : List Nat) : Option (List Nat) :=
  (huffmanCode ord data).map fun tbl => packBits (encodedBits tbl data)

/-- The two-stage compressor the spec describes: RLE, then Huffman.
`ord` is the map iteration order over the RLE output's distinct bytes. -/
def compress (ord data : List Nat) : Option (List Nat) :=
  huffmanEncode ord (runLengthEncode data)

/-- A list of (value, length) runs expanded back to the byte buffer they
describe. -/
def expandRuns : List (Nat × Nat) → List Nat
  | [] => []
  | (v, n) :: rs => List.replicate n v ++ expandRuns rs

/-- Runs flattened to `value, count` pairs with the count exactly as
given. -/
def flatRunsExact : List (Nat × Nat) → List Nat
  | [] => []
  | (v, n) :: rs => v :: n :: flatRunsExact rs

/-- Runs flattened to `value, count` pairs with the count reduced mod 256
(the 8-bit counter). -/
def flatRunsWrapped : List (Nat × Nat) → List Nat
  | [] => []
  | (v, n) :: rs => v :: n % 256 :: flatRunsWrapped rs

/-- `c₁` is an initial segment of `c₂`. -/
def IsCodePre (c₁ c₂ : List Nat) : Prop := ∃ t, c₁ ++ t = c₂

/-- Modelled from the spec: the `pack` of §4.5, which appends zero bits
to complete the final group (the recorded valid-bit-count then lets the
unpacker skip the trailing padding).  Stated here only to compare with
the source's `packBits`. -/
def packBitsSpecModel (bits : List Nat) : List Nat :=
  packBits (bits ++ List.replicate ((8 - bits.length % 8) % 8) 0)

/-! ### Run-length encoding lemmas -/

lemma rleAux_nil (v c : Nat) : rleAux v c [] = [v, c] := rfl

lemma rleAux_cons_eq (v c : Nat) (t : List Nat) :
    rleAux v c (v :: t) = rleAux v ((c + 1) % 256) t := by
  simp [rleAux]

lemma rleAux_cons_ne (v c x : Nat) (t : List Nat) (h : x ≠ v) :
    rleAux v c (x :: t) = v :: c :: rleAux x 1 t := by
  simp [rleAux, h]

lemma rleAux_replicate (v : Nat) (m : Nat) : ∀ (c : Nat), c < 256 → ∀ rest : List Nat,
    rleAux v c (List.replicate m v ++ rest) = rleAux v ((c + m) % 256) rest := by
  induction m with
  | zero =>
    intro c hc rest
    simp [Nat.mod_eq_of_lt hc]
  | succ m ih =>
    intro c hc rest
    rw [List.replicate_succ, List.cons_append, rleAux_cons_eq,
      ih ((c + 1) % 256) (Nat.mod_lt _ (by norm_num)) rest]
    congr 1
    omega

/-- The heart of C8 and C10: on a buffer presented as its maximal runs
(lengths positive, adjacent values distinct), the encoder emits exactly
one `value, count mod 256` pair per run, left to right. -/
lemma rle_expand_runs : ∀ rs : List (Nat × Nat),
    (∀ p ∈ rs, 1 ≤ p.2) →
    List.Chain' (fun p q : Nat × Nat => p.1 ≠ q.1) rs →
    runLengthEncode (expandRuns rs) = flatRunsWrapped rs := by
  intro rs
  induction rs with
  | nil => intro _ _; rfl
  | cons p rs ih =>
    obtain ⟨v, n⟩ := p
    intro h1 h2
    have hn : 1 ≤ n := h1 (v, n) (List.mem_cons_self _ _)
    obtain ⟨k, rfl⟩ : ∃ k, n = k + 1 := ⟨n - 1, by omega⟩
    have hexp : expandRuns ((v, k + 1) :: rs) =
        v :: (List.replicate k v ++ expandRuns rs) := by
      simp [expandRuns, List.replicate_succ]
    rw [hexp]
    show rleAux v 1 (List.replicate k v ++ expandRuns rs) = _
    rw [rleAux_replicate v k 1 (by norm_num) (expandRuns rs)]
    cases rs with
    | nil =>
      simp [flatRunsWrapped, rleAux_nil, expandRuns]
      omega
    | cons q rs' =>
      obtain ⟨w, m⟩ := q
      have hm : 1 ≤ m := h1 (w, m) (List.mem_cons_of_mem _ (List.mem_cons_self _ _))
      obtain ⟨j, rfl⟩ : ∃ j, m = j + 1 := ⟨m - 1, by omega⟩
      have hvw : v ≠ w := (List.chain'_cons.mp h2).1
      have hexp' : expandRuns ((w, j + 1) :: rs') =
          w :: (List.replicate j w ++ expandRuns rs') := by
        simp [expandRuns, List.replicate_succ]
      rw [hexp', rleAux_cons_ne _ _ _ _ (Ne.symm hvw)]
      have htail : rleAux w 1 (List.replicate j w ++ expandRuns rs') =
          runLengthEncode (expandRuns ((w, j + 1) :: rs')) := by
        rw [hexp']; rfl
      rw [htail,
        ih (fun p hp => h1 p (List.mem_cons_of_mem _ hp)) (List.chain'_cons.mp h2).2]
      simp [flatRunsWrapped]
      omega

lemma rleAux_length_even : ∀ (l : List Nat) (v c : Nat),
    (rleAux v c l).length % 2 = 0 := by
  intro l
  induction l with
  | nil => intro v c; simp [rleAux_nil]
  | cons x xs ih =>
    intro v c
    by_cases h : x = v
    · rw [h, rleAux_cons_eq]; exact ih v _
    · rw [rleAux_cons_ne _ _ _ _ h]
      have := ih x 1
      simp only [List.length_cons]
      omega

lemma rle_length_even (l : List Nat) : (runLengthEncode l).length % 2 = 0 := by
  cases l with
  | nil => rfl
  | cons x xs => exact rleAux_length_even xs x 1

lemma flatRuns_no_wrap : ∀ rs : List (Nat × Nat), (∀ p ∈ rs, p.2 ≤ 255) →
    flatRunsWrapped rs = flatRunsExact rs := by
  intro rs
  induction rs with
  | nil => intro _; rfl
  | cons p rs ih =>
    obtain ⟨v, n⟩ := p
    intro h
    have hn : n ≤ 255 := h (v, n) (List.mem_cons_self _ _)
    have : n % 256 = n := Nat.mod_eq_of_lt (by omega)
    simp [flatRunsWrapped, flatRunsExact, this,
      ih (fun q hq => h q (List.mem_cons_of_mem _ hq))]

/-- Claim C8: on a buffer whose maximal runs all have length at most 255
(lengths positive, adjacent run values distinct), the encoder's output is
exactly the flat left-to-right sequence of `value, count` pairs of those
runs. -/
theorem rle_maximal_runs (rs : List (Nat × Nat))
    (h1 : ∀ p ∈ rs, 1 ≤ p.2 ∧ p.2 ≤ 255)
    (h2 : List.Chain' (fun p q : Nat × Nat => p.1 ≠ q.1) rs) :
    runLengthEncode (expandRuns rs) = flatRunsExact rs := by
  rw [rle_expand_runs rs (fun p hp => (h1 p hp).1) h2]
  exact flatRuns_no_wrap rs (fun p hp => (h1 p hp).2)

/-- Claim C8, witness: the spec's scenario, the buffer spelt `aaaabbbcc`. -/
theorem rle_maximal_runs_witness :
    runLengthEncode [97, 97, 97, 97, 98, 98, 98, 99, 99] = [97, 4, 98, 3, 99, 2] := by
  have h := rle_maximal_runs [(97, 4), (98, 3), (99, 2)] (by decide) (by simp)
  have e : expandRuns [(97, 4), (98, 3), (99, 2)] =
      [97, 97, 97, 97, 98, 98, 98, 99, 99] := by decide
  have f : flatRunsExact [(97, 4), (98, 3), (99, 2)] = [97, 4, 98, 3, 99, 2] := by decide
  rw [← e, ← f]
  exact h

/-- Claim C10: the encoder emits exactly one pair per maximal run, with the
count reduced mod 256 by the 8-bit counter, and its output always has
even length (a flat value/count pair sequence). -/
theorem rle_wraparound_runs (rs : List (Nat × Nat))
    (h1 : ∀ p ∈ rs, 1 ≤ p.2)
    (h2 : List.Chain' (fun p q : Nat × Nat => p.1 ≠ q.1) rs) :
    runLengthEncode (expandRuns rs) = flatRunsWrapped rs ∧
    ∀ l : List Nat, (runLengthEncode l).length % 2 = 0 :=
  ⟨rle_expand_runs rs h1 h2, rle_length_even⟩

/-- Claim C10, witness: a run of exactly 256 identical bytes is emitted with
count 0, and a concrete buffer gets an even-length encoding. -/
theorem rle_wraparound_runs_witness :
    runLengthEncode (List.replicate 256 7) = [7, 0] ∧
    (runLengthEncode [1, 2, 2]).length % 2 = 0 := by
  have h := rle_wraparound_runs [(7, 256)] (by decide) (by simp)
  have e : expandRuns [(7, 256)] = List.replicate 256 7 := by decide
  have f : flatRunsWrapped [(7, 256)] = [7, 0] := by decide
  exact ⟨by rw [← e, ← f]; exact h.1, h.2 [1, 2, 2]⟩

/-! ### Frequency table lemmas -/

lemma foldl_bumpFreq : ∀ (l : List Nat) (f : Nat → Nat) (b : Nat),
    l.foldl bumpFreq f b = f b + l.count b := by
  intro l
  induction l with
  | nil => intro f b; simp
  | cons ch tl ih =>
    intro f b
    rw [List.foldl_cons, ih]
    by_cases h : b = ch
    · simp [bumpFreq, h, List.count_cons]
      omega
    · simp [bumpFreq, h, List.count_cons, Ne.symm h]

/-- Claim C9: the frequency pass maps each byte value to its number of
occurrences in the analysed buffer, and summing the counts over the
table's keys (the distinct bytes of the buffer) gives the buffer's
length. -/
theorem freq_table_counts (data : List Nat) :
    (∀ b, buildFreq data b = data.count b) ∧
    (data.dedup.map (buildFreq data)).sum = data.length := by
  have hpt : ∀ b, buildFreq data b = data.count b := by
    intro b
    have h := foldl_bumpFreq data (fun _ => 0) b
    simpa [buildFreq] using h
  refine ⟨hpt, ?_⟩
  have hmap : data.dedup.map (buildFreq data) = data.dedup.map fun x => data.count x :=
    List.map_congr_left fun a _ => hpt a
  rw [hmap]
  exact List.sum_map_count_dedup_eq_length data

/-! ### Bit-packing lemmas -/

lemma bitsToByte_pad (k : Nat) (c : List Nat) :
    bitsToByte (List.replicate k 0 ++ c) = bitsToByte c := by
  unfold bitsToByte
  rw [List.foldl_append]
  congr 1
  induction k with
  | zero => rfl
  | succ k ih =>
    rw [List.replicate_succ, List.foldl_cons]
    simpa using ih

lemma packBitsFuel_eq : ∀ (f : Nat) (l : List Nat), l.length ≤ f →
    packBitsFuel f l = (List.range ((l.length + 7) / 8)).map
      fun i => bitsToByte (List.take 8 (List.drop (8 * i) l)) := by
  intro f
  induction f with
  | zero =>
    intro l hl
    have : l = [] := List.length_eq_zero.mp (Nat.le_zero.mp hl)
    subst this
    rfl
  | succ f ih =>
    intro l hl
    cases l with
    | nil => rfl
    | cons b rest =>
      have hlen : (List.drop 7 rest).length ≤ f := by
        rw [List.length_drop]
        simp only [List.length_cons] at hl
        omega
      have hstep : packBitsFuel (f + 1) (b :: rest) =
          bitsToByte (List.take 8 (b :: rest)) :: packBitsFuel f (List.drop 7 rest) := rfl
      rw [hstep, ih (List.drop 7 rest) hlen]
      have hnum : ((List.drop 7 rest).length + 7) / 8 = rest.length / 8 := by
        rw [List.length_drop]; omega
      have hnum2 : ((b :: rest).length + 7) / 8 = rest.length / 8 + 1 := by
        simp only [List.length_cons]; omega
      rw [hnum, hnum2, List.range_succ_eq_map, List.map_cons, List.map_map]
      congr 1
      apply List.map_congr_left
      intro i _
      have h1 : 8 * (i + 1) = (7 + 8 * i) + 1 := by omega
      simp only [Function.comp_apply, Nat.succ_eq_add_one, List.drop_drop, h1,
        List.drop_succ_cons]

/-- Claim C6, amended: `packBits` chops the concatenated code string into
successive 8-bit chunks and emits one byte per chunk (so the output
length is the ceiling of bits/8); each chunk — in particular a short
final chunk — is read as a binary numeral, which places the padding
zeros in the high-order positions (prepending zero bits never changes a
chunk's byte); no valid-bit-count is recorded in the output. -/
theorem packBits_grouping (bits : List Nat) :
    packBits bits = (List.range ((bits.length + 7) / 8)).map
      (fun i => bitsToByte (List.take 8 (List.drop (8 * i) bits))) ∧
    (packBits bits).length = (bits.length + 7) / 8 ∧
    ∀ k c, bitsToByte (List.replicate k 0 ++ c) = bitsToByte c := by
  have h := packBitsFuel_eq bits.length bits le_rfl
  refine ⟨h, ?_, bitsToByte_pad⟩
  show (packBits bits).length = _
  rw [packBits, h, List.length_map, List.length_range]

/-! ### Huffman code table lemmas -/

lemma assignCodes_path : ∀ (t : HuffmanNode) (path : List Nat) (p : Nat × List Nat),
    p ∈ assignCodes t path → ∃ s, p.2 = path ++ s := by
  intro t
  induction t with
  | leaf d f =>
    intro path p hp
    simp only [assignCodes, List.mem_singleton] at hp
    exact ⟨[], by simp [hp]⟩
  | internal f l r ihl ihr =>
    intro path p hp
    simp only [assignCodes, List.mem_append] at hp
    cases hp with
    | inl h =>
      obtain ⟨s, hs⟩ := ihl (path ++ [0]) p h
      exact ⟨0 :: s, by simpa [List.append_assoc] using hs⟩
    | inr h =>
      obtain ⟨s, hs⟩ := ihr (path ++ [1]) p h
      exact ⟨1 :: s, by simpa [List.append_assoc] using hs⟩

/-- Two table entries whose codes stand in the initial-segment relation
are the same entry: every entry of the table is the path of a distinct
leaf, and a leaf's path cannot continue through another leaf. -/
lemma assignCodes_pre_inj : ∀ (t : HuffmanNode) (path : List Nat) (p q : Nat × List Nat),
    p ∈ assignCodes t path → q ∈ assignCodes t path → IsCodePre p.2 q.2 → p = q := by
  intro t
  induction t with
  | leaf d f =>
    intro path p q hp hq _
    simp only [assignCodes, List.mem_singleton] at hp hq
    rw [hp, hq]
  | internal f l r ihl ihr =>
    intro path p q hp hq hpre
    simp only [assignCodes, List.mem_append] at hp hq
    obtain ⟨u, hu⟩ := hpre
    cases hp with
    | inl hp =>
      cases hq with
      | inl hq => exact ihl _ p q hp hq ⟨u, hu⟩
      | inr hq =>
        obtain ⟨s₁, hs₁⟩ := assignCodes_path l (path ++ [0]) p hp
        obtain ⟨s₂, hs₂⟩ := assignCodes_path r (path ++ [1]) q hq
        rw [hs₁, hs₂] at hu
        exfalso
        simp only [List.append_assoc, List.cons_append, List.nil_append] at hu
        have := List.append_cancel_left hu
        simp at this
    | inr hp =>
      cases hq with
      | inl hq =>
        obtain ⟨s₁, hs₁⟩ := assignCodes_path r (path ++ [1]) p hp
        obtain ⟨s₂, hs₂⟩ := assignCodes_path l (path ++ [0]) q hq
        rw [hs₁, hs₂] at hu
        exfalso
        simp only [List.append_assoc, List.cons_append, List.nil_append] at hu
        have := List.append_cancel_left hu
        simp at this
      | inr hq => exact ihr _ p q hp hq ⟨u, hu⟩

lemma popMin_length : ∀ q : List HuffmanNode, q ≠ [] →
    ∃ x q', popMin q = some (x, q') ∧ q'.length + 1 = q.length := by
  intro q
  induction q with
  | nil => intro h; exact absurd rfl h
  | cons n rest ih =>
    intro _
    cases rest with
    | nil => exact ⟨n, [], rfl, rfl⟩
    | cons m rest' =>
      obtain ⟨p, q', hpq, hlen⟩ := ih (by simp)
      by_cases h : n.freq ≤ p.freq
      · exact ⟨n, m :: rest', by simp [popMin, hpq, h], rfl⟩
      · refine ⟨p, n :: q', by simp [popMin, hpq, h], ?_⟩
        simp only [List.length_cons] at hlen ⊢
        omega

lemma buildStep_length (q : List HuffmanNode) (h : 2 ≤ q.length) :
    ∃ q', buildStep q = some q' ∧ q'.length + 1 = q.length := by
  obtain ⟨x, q₁, hx, hlen₁⟩ := popMin_length q (by
    intro hq; rw [hq] at h; simp at h)
  obtain ⟨y, q₂, hy, hlen₂⟩ := popMin_length q₁ (by
    intro hq; rw [hq] at hlen₁; simp at hlen₁; omega)
  refine ⟨q₂ ++ [HuffmanNode.internal (x.freq + y.freq) x y], ?_, ?_⟩
  · simp [buildStep, hx, hy]
  · simp only [List.length_append, List.length_cons, List.length_nil]
    omega

lemma buildLoop_some : ∀ (f : Nat) (q : List HuffmanNode), q ≠ [] → q.length ≤ f + 1 →
    ∃ t, buildLoop f q = some t := by
  intro f
  induction f with
  | zero =>
    intro q hne hlen
    cases q with
    | nil => exact absurd rfl hne
    | cons x rest =>
      cases rest with
      | nil => exact ⟨x, rfl⟩
      | cons y rest' => simp at hlen
  | succ f ih =>
    intro q hne hlen
    cases q with
    | nil => exact absurd rfl hne
    | cons x rest =>
      cases rest with
      | nil => exact ⟨x, rfl⟩
      | cons y rest' =>
        obtain ⟨q', hq', hlen'⟩ := buildStep_length (x :: y :: rest') (by simp)
        have hne' : q' ≠ [] := by
          intro h; rw [h] at hlen'; simp at hlen'
        have hle' : q'.length ≤ f + 1 := by
          simp only [List.length_cons] at hlen hlen' ⊢
          omega
        obtain ⟨t, ht⟩ := ih q' hne' hle'
        exact ⟨t, by simp [buildLoop, hq', ht]⟩

/-- Claim C7: for every non-empty input and every iteration order of its
distinct byte values, the code table is produced (tree construction
succeeds) and is such that the code of one byte value is never an
initial segment of the code of a different byte value. -/
theorem huffman_table_pre_free (ord data : List Nat)
    (hne : data ≠ []) (_hnd : List.Nodup ord) (hkeys : ∀ x, x ∈ ord ↔ x ∈ data) :
    ∃ tbl, huffmanCode ord data = some tbl ∧
      ∀ p ∈ tbl, ∀ q ∈ tbl, p.1 ≠ q.1 → ¬ IsCodePre p.2 q.2 := by
  have hordne : (ord.map fun s => HuffmanNode.leaf s (buildFreq data s)) ≠ [] := by
    obtain ⟨x, hx⟩ := List.exists_mem_of_ne_nil data hne
    intro h
    have : ord = [] := by simpa using h
    rw [this] at hkeys
    exact absurd ((hkeys x).mpr hx) (by simp)
  obtain ⟨root, hroot⟩ := buildLoop_some ord.length _ hordne (by simp)
  refine ⟨assignCodes root [], ?_, ?_⟩
  · simp [huffmanCode, buildHuffmanTree, hroot]
  · intro p hp q hq hne' hpre
    exact hne' (congrArg Prod.fst (assignCodes_pre_inj root [] p q hp hq hpre))

/-- Claim C7, witness: the table of the concrete buffer `[0, 1]` exists and is
free of initial-segment collisions between distinct byte values. -/
theorem huffman_table_pre_free_witness :
    ∃ tbl, huffmanCode [0, 1] [0, 1] = some tbl ∧
      ∀ p ∈ tbl, ∀ q ∈ tbl, p.1 ≠ q.1 → ¬ IsCodePre p.2 q.2 :=
  huffman_table_pre_free [0, 1] [0, 1] (by decide) (by decide) fun x => Iff.rfl

/-- Claim C1: the two-stage compressor is not injective — the buffers `[1]` and
`[2, 2]` both compress to the empty byte vector (each RLE output has a
single distinct symbol, whose Huffman code is the empty string), so no
decoder whatsoever can satisfy `decompress (compress B) = B` for all `B`;
the repository also contains no decoder.  The listed iteration orders are
exactly the distinct bytes of the respective RLE outputs. -/
theorem compress_collision :
    compress [1] [1] = some [] ∧ compress [2] [2, 2] = some [] ∧
    (runLengthEncode [1]).dedup = [1] ∧ (runLengthEncode [2, 2]).dedup = [2] ∧
    ([1] : List Nat) ≠ [2, 2] := by
  refine ⟨by decide, by decide, by decide, by decide, by decide⟩

/-- Claim C2: a maximal run of 300 identical bytes is emitted as the single
pair `(97, 44)` — the `uchar` counter wraps to `300 % 256 = 44` — and not
as the two pairs `(97, 255), (97, 45)` the claim requires. -/
theorem rle_300_wraps :
    runLengthEncode (List.replicate 300 97) = [97, 44] ∧
    runLengthEncode (List.replicate 300 97) ≠ [97, 255, 97, 45] := by
  refine ⟨by decide, by decide⟩

/-- Claim C3: on the empty buffer the frequency table is indeed empty, but the
pipeline does not short-circuit: `buildHuffmanTree` is entered with an
empty priority queue and pops from it (undefined behaviour, modelled as
`none`); no empty-stream marker is produced anywhere. -/
theorem empty_input_no_marker :
    compress [] [] = none ∧ buildHuffmanTree [] [] = none ∧
    ∀ b, buildFreq [] b = 0 :=
  ⟨by decide, by decide, fun _ => rfl⟩

/-- Claim C4: on a buffer of ten copies of `0x41` the tree is a single leaf
with no branch, the code assigned to byte 65 is the empty bit string, and
the packed output is empty — the data is unrecoverable, contradicting the
claim that the code must be a non-empty bit string. -/
theorem single_symbol_empty_code :
    huffmanCode [65] (List.replicate 10 65) = some [(65, [])] ∧
    huffmanEncode [65] (List.replicate 10 65) = some [] := by
  refine ⟨by decide, by decide⟩

/-- Claim C5: compression output depends on the `unordered_map` iteration
order.  The buffer `[0, 0, 1]` has RLE output `[0, 2, 1, 1]`, in which
bytes 0 and 2 tie at frequency 1; the comparator orders nodes by
frequency only, and the two iteration orders `[0, 2, 1]` and `[2, 0, 1]`
of the same key set yield the distinct compressed bytes `[44]` and
`[56]`. -/
theorem tie_break_order_dependent :
    compress [0, 2, 1] [0, 0, 1] = some [44] ∧
    compress [2, 0, 1] [0, 0, 1] = some [56] ∧
    (runLengthEncode [0, 0, 1]).dedup = [0, 2, 1] ∧
    List.Perm [2, 0, 1] [0, 2, 1] :=
  ⟨by decide, by decide, by decide, List.Perm.swap 0 2 [1]⟩

/-- Claim C6, counterexample: the packer records no valid-bit-count — the 1-bit
string `[1]` and the 8-bit string `[0,0,0,0,0,0,0,1]` pack to the same
single byte — and the incomplete final group is not completed by
appending zero bits as the spec's pack does (`[1]` packs to byte 1, not
128): the padding zeros land in the high-order positions. -/
theorem pack_no_bitcount_cex :
    packBits [1] = [1] ∧ packBits [0, 0, 0, 0, 0, 0, 0, 1] = [1] ∧
    packBitsSpecModel [1] = [128] ∧
    ([1] : List Nat) ≠ [0, 0, 0, 0, 0, 0, 0, 1] := by
  refine ⟨by decide, by decide, by decide, by decide⟩

end ImageCompression
